import Mathlib

/-!
# Verification of the quantum weight model

Shallow embedding of `Quantum_Weight_Model_Example.py`.

Modelling conventions:
* A Python `dict` (insertion ordered, unique keys, order-insensitive equality)
  is embedded as an association list `List (String × _)` for the inputs that
  are iterated over, and the derived `weights` dict as a finitely supported
  function `String → Option ℝ` (Python dict equality and the operations the
  code performs on `weights` — keyed writes, value-wise division, keyed
  reads — are all extensional in the key set, so a function is a faithful
  embedding of it).
* Numbers are idealized as exact rationals (input data) and reals
  (computed scores).  `numpy` broadcasting of two 1-D arrays is embedded in
  `vsub`: equal lengths subtract pointwise, a length-1 operand broadcasts,
  anything else is a `ValueError`.
* Python exceptions are an explicit `PyErr` value: a missing dict key is
  `keyError`, a failed broadcast is `valueError`.  `update_weights` mutates
  `self.weights` in place, so its embedding returns the post-state *and* the
  escaping exception, if any.
-/

/-- Python exceptions that the scoring code can raise. -/
inductive PyErr where
  | keyError : String → PyErr
  | valueError : PyErr
deriving DecidableEq, Repr

/-- A coordinate vector: the spatial position of a qubit (exact rationals). -/
abbrev Coord := List ℚ

/-- The model state: the four construction-time inputs and the derived
`weights` dict (`String → Option ℝ`, `none` = key absent). -/
structure QuantumWeightModel where
  qubit_layout : List (String × Coord)
  coherence_map : List (String × ℚ)
  entanglement_map : List ((String × String) × ℚ)
  control_roles : List String
  weights : String → Option ℝ

namespace QuantumWeightModel

/-- `np.array(a) - np.array(b)` on two 1-D arrays: pointwise difference when
the lengths agree, numpy broadcasting when one operand has length 1, and a
`ValueError` otherwise. -/
def vsub (a b : Coord) : Except PyErr Coord :=
  if a.length = b.length then .ok (List.zipWith (· - ·) a b)
  else if a.length = 1 then .ok (b.map (fun x => a.headI - x))
  else if b.length = 1 then .ok (a.map (fun x => x - b.headI))
  else .error .valueError

/-- `np.linalg.norm`: the Euclidean (L2) norm of a vector. -/
noncomputable def l2norm (v : Coord) : ℝ :=
  Real.sqrt ((v.map (fun x : ℚ => ((x : ℝ)) ^ 2)).sum)

/-- `compute_proximity(q1, q2)`: look both IDs up in the layout
(`KeyError` on a missing key) and return the L2 norm of the difference. -/
noncomputable def compute_proximity (m : QuantumWeightModel) (q1 q2 : String) :
    Except PyErr ℝ :=
  match m.qubit_layout.lookup q1 with
  | none => .error (.keyError q1)
  | some pos1 =>
    match m.qubit_layout.lookup q2 with
    | none => .error (.keyError q2)
    | some pos2 =>
      match vsub pos1 pos2 with
      | .error e => .error e
      | .ok d => .ok (l2norm d)

/-- The generator `sum(1 / compute_proximity(qid, other) for other in layout
if other != qid)`: walk the layout keys in order, skip `qid` itself, and sum
the reciprocal distances, propagating the first exception. -/
noncomputable def sumRecip (m : QuantumWeightModel) (qid : String) :
    List (String × Coord) → Except PyErr ℝ
  | [] => .ok 0
  | (q, _) :: rest =>
    if q = qid then sumRecip m qid rest
    else
      match compute_proximity m qid q with
      | .error e => .error e
      | .ok d =>
        match sumRecip m qid rest with
        | .error e => .error e
        | .ok s => .ok (1 / d + s)

/-- `coherence_map.get(qubit_id, 0)`. -/
def coherenceScore (m : QuantumWeightModel) (qid : String) : ℚ :=
  (m.coherence_map.lookup qid).getD 0

/-- `sum(v for (q1, q2), v in entanglement_map.items() if qubit_id in (q1, q2))`. -/
def entanglementScore (m : QuantumWeightModel) (qid : String) : ℚ :=
  ((m.entanglement_map.filter
      (fun p => qid == p.1.1 || qid == p.1.2)).map Prod.snd).sum

/-- `calculate_weight(qubit_id)`:
`(proximity_score + entanglement_score) * coherence_score * control_bonus`. -/
noncomputable def calculate_weight (m : QuantumWeightModel) (qid : String) :
    Except PyErr ℝ :=
  match sumRecip m qid m.qubit_layout with
  | .error e => .error e
  | .ok prox =>
    .ok ((prox + (entanglementScore m qid : ℝ)) * (coherenceScore m qid : ℝ) *
         (if qid ∈ m.control_roles then (3 / 2 : ℝ) else 1))

/-- The scoring loop of `update_weights`: write each qubit's raw score into
the weights dict in layout order, tracking `max_score`; an exception aborts
the loop, leaving the writes made so far in place. -/
noncomputable def scoreLoop (m : QuantumWeightModel) :
    (String → Option ℝ) → ℝ → List (String × Coord) →
      ((String → Option ℝ) × ℝ × Option PyErr)
  | w, mx, [] => (w, mx, none)
  | w, mx, (q, _) :: rest =>
    match calculate_weight m q with
    | .error e => (w, mx, some e)
    | .ok r => scoreLoop m (fun x => if x = q then some r else w x) (max mx r) rest

open scoped Classical in
/-- `update_weights()`: run the scoring loop from `max_score = 0`; on success,
if the maximum is strictly positive divide every weights entry by it.  The
result is the post-state paired with the escaping exception, if any — on an
exception the partially updated weights remain in the state, as in the
source, where `self.weights` is mutated in place. -/
noncomputable def update_weights (m : QuantumWeightModel) :
    QuantumWeightModel × Option PyErr :=
  match scoreLoop m m.weights 0 m.qubit_layout with
  | (w, _, some e) => ({ m with weights := w }, some e)
  | (w, mx, none) =>
    if 0 < mx then
      ({ m with weights := fun q => (w q).map (fun v => v / mx) }, none)
    else
      ({ m with weights := w }, none)

/-- `get_weights()`. -/
def get_weights (m : QuantumWeightModel) : String → Option ℝ := m.weights

/-- Spec formulation (§4.2) of the proximity score of an entity with
coordinates `c`: the sum, over all other entities in the layout, of the
reciprocal Euclidean distance to them. -/
noncomputable def proximitySpec (m : QuantumWeightModel) (qid : String)
    (c : Coord) : ℝ :=
  ((m.qubit_layout.filter (fun p => p.1 ≠ qid)).map
    (fun p => 1 / l2norm (List.zipWith (· - ·) c p.2))).sum

/-- The raw score as a total function: the `.ok` value of `calculate_weight`
(and `0` on the error branch, which the lemmas below never rely on). -/
noncomputable def rawScore (m : QuantumWeightModel) (qid : String) : ℝ :=
  match calculate_weight m qid with
  | .ok r => r
  | .error _ => 0

/-- The maximum raw score as the code computes it: a left fold of `max`
over the layout population, started at `0`. -/
noncomputable def maxRaw (m : QuantumWeightModel) : ℝ :=
  m.qubit_layout.foldl (fun a p => max a (rawScore m p.1)) 0

/-! ## Input-validity predicates (the spec's data-model constraints) -/

/-- All coordinate vectors in the layout have the same dimensionality
(§4.1 input constraint). -/
def DimsOk (m : QuantumWeightModel) : Prop :=
  ∀ p ∈ m.qubit_layout, ∀ p' ∈ m.qubit_layout, p.2.length = p'.2.length

/-- No two entities with distinct IDs occupy identical coordinates: the sum
of squared coordinate differences of any two distinct-key layout entries is
nonzero.  Degenerate layouts are the subject of the §7 open question. -/
def Nondegenerate (m : QuantumWeightModel) : Prop :=
  ∀ p ∈ m.qubit_layout, ∀ p' ∈ m.qubit_layout,
    p.1 ≠ p'.1 → ((List.zipWith (· - ·) p.2 p'.2).map (fun x => x ^ 2)).sum ≠ 0

/-- All coherence values are non-negative (§3). -/
def CoherenceNonneg (m : QuantumWeightModel) : Prop :=
  ∀ p ∈ m.coherence_map, 0 ≤ p.2

/-- All coupling strengths are non-negative (§3). -/
def CouplingNonneg (m : QuantumWeightModel) : Prop :=
  ∀ p ∈ m.entanglement_map, 0 ≤ p.2

/-- Every key of the weights dict is a layout key: the §3 lifecycle
invariant (weights start empty and are only ever written for layout keys). -/
def WeightsSub (m : QuantumWeightModel) : Prop :=
  ∀ q, (m.weights q).isSome → q ∈ m.qubit_layout.map Prod.fst

/-- The layout dict has unique keys (true of every Python dict). -/
def KeysNodup (m : QuantumWeightModel) : Prop :=
  (m.qubit_layout.map Prod.fst).Nodup

/-! ## Concrete test fixtures -/

/-- Two qubits one unit apart, both with coherence 1, no couplings and no
control roles; fresh (empty) weights. -/
def mUnit : QuantumWeightModel :=
  { qubit_layout := [("A", [0]), ("B", [1])]
    coherence_map := [("A", 1), ("B", 1)]
    entanglement_map := []
    control_roles := []
    weights := fun _ => none }

/-- `mUnit` with qubit `A` promoted to a control role. -/
def mCtrl : QuantumWeightModel :=
  { mUnit with control_roles := ["A"] }

/-- `mUnit` with qubit `A` absent from the coherence map. -/
def mZeroCoh : QuantumWeightModel :=
  { mUnit with coherence_map := [("B", 1)] }

/-- Two distinct qubits at identical coordinates: the degenerate geometry of
the §7 open question. -/
def mDeg : QuantumWeightModel :=
  { qubit_layout := [("A", [0, 0]), ("B", [0, 0])]
    coherence_map := [("A", 1), ("B", 1)]
    entanglement_map := []
    control_roles := []
    weights := fun _ => none }

/-- A layout whose coordinate dimensionalities are inconsistent: scoring `A`
succeeds (its length-1 vector broadcasts against both others) but scoring `B`
fails on the 2-vs-3 broadcast against `C`, so `update_weights` raises after
having already written `A`'s raw score. -/
def mMismatch : QuantumWeightModel :=
  { qubit_layout := [("A", [0]), ("B", [1, 2]), ("C", [1, 2, 3])]
    coherence_map := [("A", 0)]
    entanglement_map := []
    control_roles := []
    weights := fun _ => none }

/-- A model with an empty layout and fresh weights. -/
def mEmpty : QuantumWeightModel :=
  { qubit_layout := []
    coherence_map := []
    entanglement_map := []
    control_roles := []
    weights := fun _ => none }

end QuantumWeightModel

namespace QuantumWeightModel

/-! ## Association-list helper lemmas -/

lemma lookup_isSome_iff {β : Type} (L : List (String × β)) (q : String) :
    (L.lookup q).isSome ↔ q ∈ L.map Prod.fst := by
  induction L with
  | nil => simp [List.lookup]
  | cons p rest ih =>
    by_cases h : q = p.1
    · subst h
      simp [List.lookup]
    · simp [List.lookup, beq_false_of_ne h, h, ih]

lemma mem_of_lookup_eq_some {β : Type} {L : List (String × β)} {q : String}
    {c : β} (h : L.lookup q = some c) : (q, c) ∈ L := by
  induction L with
  | nil => simp [List.lookup] at h
  | cons p rest ih =>
    by_cases hq : q = p.1
    · subst hq
      simp [List.lookup] at h
      simp [← h]
    · simp only [List.lookup, beq_false_of_ne hq] at h
      exact List.mem_cons_of_mem _ (ih h)

lemma lookup_eq_some_of_nodup {β : Type} {L : List (String × β)}
    (hnd : (L.map Prod.fst).Nodup) {p : String × β} (hp : p ∈ L) :
    L.lookup p.1 = some p.2 := by
  induction L with
  | nil => simp at hp
  | cons a rest ih =>
    simp only [List.map_cons, List.nodup_cons] at hnd
    rcases List.mem_cons.1 hp with h | h
    · subst h
      simp [List.lookup]
    · have hne : p.1 ≠ a.1 := by
        intro he
        exact hnd.1 (he ▸ List.mem_map_of_mem Prod.fst h)
      simp only [List.lookup, beq_false_of_ne hne]
      exact ih hnd.2 h

/-! ## Fold-max helper lemmas -/

lemma foldl_max_init_le {α : Type} (f : α → ℝ) (L : List α) (a : ℝ) :
    a ≤ L.foldl (fun acc x => max acc (f x)) a := by
  induction L generalizing a with
  | nil => exact le_refl a
  | cons p rest ih => exact le_trans (le_max_left a (f p)) (ih (max a (f p)))

lemma le_foldl_max {α : Type} (f : α → ℝ) (L : List α) (a : ℝ) {p : α}
    (hp : p ∈ L) : f p ≤ L.foldl (fun acc x => max acc (f x)) a := by
  induction L generalizing a with
  | nil => cases hp
  | cons hd rest ih =>
    rcases List.mem_cons.1 hp with h | h
    · subst h
      exact le_trans (le_max_right a (f p)) (foldl_max_init_le f rest (max a (f p)))
    · exact ih (max a (f hd)) h

lemma foldl_max_eq_init_or_mem {α : Type} (f : α → ℝ) (L : List α) (a : ℝ) :
    L.foldl (fun acc x => max acc (f x)) a = a ∨
      ∃ p ∈ L, L.foldl (fun acc x => max acc (f x)) a = f p := by
  induction L generalizing a with
  | nil => exact Or.inl rfl
  | cons hd rest ih =>
    rcases ih (max a (f hd)) with h | ⟨p, hp, h⟩
    · rcases max_cases a (f hd) with ⟨he, _⟩ | ⟨he, _⟩
      · exact Or.inl (by rw [List.foldl_cons, h, he])
      · exact Or.inr ⟨hd, List.mem_cons_self hd rest, by rw [List.foldl_cons, h, he]⟩
    · exact Or.inr ⟨p, List.mem_cons_of_mem hd hp, by rw [List.foldl_cons, h]⟩

/-! ## Non-negativity of the computed quantities -/

lemma compute_proximity_ok_nonneg {m : QuantumWeightModel} {q1 q2 : String}
    {d : ℝ} (h : compute_proximity m q1 q2 = .ok d) : 0 ≤ d := by
  unfold compute_proximity at h
  split at h
  · cases h
  · split at h
    · cases h
    · split at h
      · cases h
      · cases h
        exact Real.sqrt_nonneg _

lemma sumRecip_ok_nonneg {m : QuantumWeightModel} {qid : String}
    {L : List (String × Coord)} {r : ℝ} (h : sumRecip m qid L = .ok r) :
    0 ≤ r := by
  induction L generalizing r with
  | nil =>
    cases h
    exact le_refl 0
  | cons p rest ih =>
    rw [sumRecip] at h
    split at h
    · exact ih h
    · split at h
      · cases h
      · split at h
        · cases h
        · cases h
          exact add_nonneg
            (one_div_nonneg.2 (compute_proximity_ok_nonneg (by assumption)))
            (ih (by assumption))

lemma coherenceScore_nonneg {m : QuantumWeightModel}
    (hcoh : CoherenceNonneg m) (q : String) : 0 ≤ coherenceScore m q := by
  unfold coherenceScore
  rcases hl : m.coherence_map.lookup q with _ | v
  · simp
  · simpa using hcoh (q, v) (mem_of_lookup_eq_some hl)

lemma entanglementScore_nonneg {m : QuantumWeightModel}
    (hcpl : CouplingNonneg m) (q : String) : 0 ≤ entanglementScore m q := by
  unfold entanglementScore
  refine List.sum_nonneg ?_
  intro x hx
  rcases List.mem_map.1 hx with ⟨p, hp, hpx⟩
  exact hpx ▸ hcpl p (List.mem_of_mem_filter hp)

lemma calculate_weight_ok_nonneg {m : QuantumWeightModel} {q : String} {r : ℝ}
    (hcoh : CoherenceNonneg m) (hcpl : CouplingNonneg m)
    (h : calculate_weight m q = .ok r) : 0 ≤ r := by
  unfold calculate_weight at h
  split at h
  · cases h
  · cases h
    rename_i prox hprox
    refine mul_nonneg (mul_nonneg (add_nonneg (sumRecip_ok_nonneg hprox) ?_) ?_) ?_
    · exact_mod_cast entanglementScore_nonneg hcpl q
    · exact_mod_cast coherenceScore_nonneg hcoh q
    · split <;> norm_num

lemma rawScore_eq_of_ok {m : QuantumWeightModel} {q : String} {r : ℝ}
    (h : calculate_weight m q = .ok r) : rawScore m q = r := by
  simp [rawScore, h]

lemma rawScore_nonneg {m : QuantumWeightModel}
    (hcoh : CoherenceNonneg m) (hcpl : CouplingNonneg m) (q : String) :
    0 ≤ rawScore m q := by
  unfold rawScore
  split
  · exact calculate_weight_ok_nonneg hcoh hcpl (by assumption)
  · exact le_refl 0

/-! ## Success of the pass on dimensionally consistent layouts -/

lemma vsub_ok_of_length_eq {a b : Coord} (h : a.length = b.length) :
    vsub a b = .ok (List.zipWith (· - ·) a b) := by
  simp [vsub, h]

lemma sumRecip_ok_of_dims (m : QuantumWeightModel) (hd : DimsOk m)
    {q : String} {c : Coord} (hq : m.qubit_layout.lookup q = some c)
    (L : List (String × Coord)) (hL : ∀ p ∈ L, p ∈ m.qubit_layout) :
    ∃ r, sumRecip m q L = .ok r := by
  induction L with
  | nil => exact ⟨0, rfl⟩
  | cons p rest ih =>
    obtain ⟨s, hs⟩ := ih (fun x hx => hL x (List.mem_cons_of_mem p hx))
    by_cases hk : p.1 = q
    · exact ⟨s, by rw [sumRecip, if_pos hk, hs]⟩
    · have hmem : p.1 ∈ m.qubit_layout.map Prod.fst :=
        List.mem_map_of_mem Prod.fst (hL p (List.mem_cons_self p rest))
      obtain ⟨c', hc'⟩ := Option.isSome_iff_exists.1 ((lookup_isSome_iff _ _).2 hmem)
      have hlen : c.length = c'.length :=
        hd (q, c) (mem_of_lookup_eq_some hq) (p.1, c') (mem_of_lookup_eq_some hc')
      refine ⟨1 / l2norm (List.zipWith (· - ·) c c') + s, ?_⟩
      rw [sumRecip, if_neg hk]
      rw [show compute_proximity m q p.1 = .ok (l2norm (List.zipWith (· - ·) c c')) by
        simp only [compute_proximity, hq, hc', vsub_ok_of_length_eq hlen]]
      rw [hs]

lemma calculate_weight_ok_of_dims (m : QuantumWeightModel) (hd : DimsOk m)
    {q : String} (hq : q ∈ m.qubit_layout.map Prod.fst) :
    ∃ r, calculate_weight m q = .ok r := by
  obtain ⟨c, hc⟩ := Option.isSome_iff_exists.1 ((lookup_isSome_iff _ _).2 hq)
  obtain ⟨prox, hprox⟩ :=
    sumRecip_ok_of_dims m hd hc m.qubit_layout (fun p hp => hp)
  exact ⟨_, by rw [calculate_weight, hprox]⟩

/-! ## The scoring loop and `update_weights` on the success path -/

lemma scoreLoop_ok (m : QuantumWeightModel) (L : List (String × Coord))
    (hL : ∀ p ∈ L, ∃ r, calculate_weight m p.1 = .ok r)
    (w0 : String → Option ℝ) (mx0 : ℝ) :
    scoreLoop m w0 mx0 L =
      (fun q => if q ∈ L.map Prod.fst then some (rawScore m q) else w0 q,
       L.foldl (fun a p => max a (rawScore m p.1)) mx0, none) := by
  induction L generalizing w0 mx0 with
  | nil => simp [scoreLoop]
  | cons p rest ih =>
    obtain ⟨r, hr⟩ := hL p (List.mem_cons_self p rest)
    have hraw : rawScore m p.1 = r := rawScore_eq_of_ok hr
    have hrest : ∀ x ∈ rest, ∃ r, calculate_weight m x.1 = .ok r :=
      fun x hx => hL x (List.mem_cons_of_mem p hx)
    rcases p with ⟨k, coords⟩
    have hstep : scoreLoop m w0 mx0 ((k, coords) :: rest) =
        scoreLoop m (fun x => if x = k then some r else w0 x) (max mx0 r) rest := by
      rw [scoreLoop, hr]
    rw [hstep, ih hrest]
    refine Prod.ext ?_ (Prod.ext ?_ rfl)
    · funext x
      by_cases hxr : x ∈ rest.map Prod.fst
      · simp [hxr]
      · by_cases hxk : x = k
        · subst hxk
          simp [hxr, hraw]
        · simp [hxr, hxk]
    · simp only [List.foldl_cons]
      rw [hraw]

lemma update_weights_fields (m : QuantumWeightModel) :
    (update_weights m).1.qubit_layout = m.qubit_layout ∧
    (update_weights m).1.coherence_map = m.coherence_map ∧
    (update_weights m).1.entanglement_map = m.entanglement_map ∧
    (update_weights m).1.control_roles = m.control_roles := by
  unfold update_weights
  rcases hs : scoreLoop m m.weights 0 m.qubit_layout with ⟨w, mx, e⟩
  cases e with
  | none =>
    dsimp only
    split <;> simp
  | some e => simp

lemma all_ok_of_dims (m : QuantumWeightModel) (hd : DimsOk m) :
    ∀ p ∈ m.qubit_layout, ∃ r, calculate_weight m p.1 = .ok r :=
  fun p hp => calculate_weight_ok_of_dims m hd (List.mem_map_of_mem Prod.fst hp)

lemma all_ok_of_success (m : QuantumWeightModel)
    (hsucc : (update_weights m).2 = none) :
    ∀ p ∈ m.qubit_layout, ∃ r, calculate_weight m p.1 = .ok r := by
  have hloop : ∀ (L : List (String × Coord)) (w0 : String → Option ℝ) (mx0 : ℝ)
      (w : String → Option ℝ) (mx : ℝ),
      scoreLoop m w0 mx0 L = (w, mx, none) →
      ∀ p ∈ L, ∃ r, calculate_weight m p.1 = .ok r := by
    intro L
    induction L with
    | nil => intro _ _ _ _ _ x hx; cases hx
    | cons p rest ih =>
      intro w0 mx0 w mx h x hx
      rcases p with ⟨k, c⟩
      rw [scoreLoop] at h
      rcases hcw : calculate_weight m k with e | r <;> rw [hcw] at h
      · simp at h
      · rcases List.mem_cons.1 hx with hx | hx
        · exact ⟨r, by rw [hx]; exact hcw⟩
        · exact ih _ _ _ _ h x hx
  unfold update_weights at hsucc
  rcases hs : scoreLoop m m.weights 0 m.qubit_layout with ⟨w, mx, e⟩
  rw [hs] at hsucc
  cases e with
  | none => exact hloop m.qubit_layout m.weights 0 w mx hs
  | some e => simp at hsucc

open scoped Classical in
lemma update_weights_char (m : QuantumWeightModel)
    (hL : ∀ p ∈ m.qubit_layout, ∃ r, calculate_weight m p.1 = .ok r) :
    (update_weights m).2 = none ∧
    ∀ q, (update_weights m).1.weights q =
      if 0 < maxRaw m then
        (if q ∈ m.qubit_layout.map Prod.fst then some (rawScore m q)
         else m.weights q).map (fun v => v / maxRaw m)
      else
        if q ∈ m.qubit_layout.map Prod.fst then some (rawScore m q)
        else m.weights q := by
  have hs := scoreLoop_ok m m.qubit_layout hL m.weights 0
  have hmaxeq : m.qubit_layout.foldl (fun a p => max a (rawScore m p.1)) 0 = maxRaw m := rfl
  unfold update_weights
  rw [hs]
  dsimp only
  rw [hmaxeq]
  by_cases hmx : 0 < maxRaw m
  · simp only [if_pos hmx]
    exact ⟨trivial, fun _ => trivial⟩
  · simp only [if_neg hmx]
    exact ⟨trivial, fun _ => trivial⟩

end QuantumWeightModel

namespace QuantumWeightModel

lemma l2norm_zipWith_sub_comm (a b : Coord) :
    l2norm (List.zipWith (· - ·) a b) = l2norm (List.zipWith (· - ·) b a) := by
  unfold l2norm
  congr 1
  induction a generalizing b with
  | nil => cases b <;> simp
  | cons x xs ih =>
    cases b with
    | nil => simp
    | cons y ys =>
      simp only [List.zipWith_cons_cons, List.map_cons, List.sum_cons, ih ys]
      push_cast
      ring

lemma sumRecip_eq_spec (m : QuantumWeightModel) (hd : DimsOk m)
    (hnodup : KeysNodup m) {q : String} {c : Coord}
    (hq : m.qubit_layout.lookup q = some c)
    (L : List (String × Coord)) (hL : ∀ p ∈ L, p ∈ m.qubit_layout) :
    sumRecip m q L =
      .ok (((L.filter (fun p => p.1 ≠ q)).map
        (fun p => 1 / l2norm (List.zipWith (· - ·) c p.2))).sum) := by
  induction L with
  | nil => simp [sumRecip]
  | cons p rest ih =>
    rcases p with ⟨k, ck⟩
    have hrest := ih (fun x hx => hL x (List.mem_cons_of_mem _ hx))
    by_cases hk : k = q
    · rw [sumRecip, if_pos hk, hrest]
      simp [List.filter_cons, hk]
    · have hmem : (k, ck) ∈ m.qubit_layout := hL _ (List.mem_cons_self _ _)
      have hlk : m.qubit_layout.lookup k = some ck :=
        lookup_eq_some_of_nodup hnodup hmem
      have hlen : c.length = ck.length :=
        hd (q, c) (mem_of_lookup_eq_some hq) (k, ck) hmem
      rw [sumRecip, if_neg hk]
      rw [show compute_proximity m q k = .ok (l2norm (List.zipWith (· - ·) c ck)) by
        simp only [compute_proximity, hq, hlk, vsub_ok_of_length_eq hlen]]
      rw [hrest]
      simp [List.filter_cons, hk]

lemma scoreLoop_err {m : QuantumWeightModel} {L : List (String × Coord)}
    {w0 w : String → Option ℝ} {mx0 mx : ℝ} {e : PyErr}
    (h : scoreLoop m w0 mx0 L = (w, mx, some e)) (q : String) :
    w q = w0 q ∨ ∃ r, calculate_weight m q = .ok r ∧ w q = some r := by
  induction L generalizing w0 mx0 with
  | nil =>
    rw [scoreLoop] at h
    simp at h
  | cons p rest ih =>
    rcases p with ⟨k, c⟩
    rw [scoreLoop] at h
    rcases hcw : calculate_weight m k with e' | r <;> rw [hcw] at h
    · simp only [Prod.mk.injEq] at h
      exact Or.inl (by rw [← h.1])
    · rcases ih h with h1 | h2
      · by_cases hq : q = k
        · subst hq
          rw [h1]
          exact Or.inr ⟨r, hcw, by simp⟩
        · exact Or.inl (by rw [h1]; simp [hq])
      · exact Or.inr h2

lemma compute_proximity_congr {m1 m2 : QuantumWeightModel}
    (h : m1.qubit_layout = m2.qubit_layout) (q1 q2 : String) :
    compute_proximity m1 q1 q2 = compute_proximity m2 q1 q2 := by
  unfold compute_proximity
  rw [h]

lemma sumRecip_congr {m1 m2 : QuantumWeightModel}
    (h : m1.qubit_layout = m2.qubit_layout) (q : String)
    (L : List (String × Coord)) : sumRecip m1 q L = sumRecip m2 q L := by
  induction L with
  | nil => rfl
  | cons p rest ih =>
    rcases p with ⟨k, c⟩
    rw [sumRecip, sumRecip, compute_proximity_congr h, ih]

lemma calculate_weight_congr {m1 m2 : QuantumWeightModel}
    (hlay : m1.qubit_layout = m2.qubit_layout)
    (hcoh : m1.coherence_map = m2.coherence_map)
    (hent : m1.entanglement_map = m2.entanglement_map)
    (hctl : m1.control_roles = m2.control_roles) (q : String) :
    calculate_weight m1 q = calculate_weight m2 q := by
  unfold calculate_weight coherenceScore entanglementScore
  rw [hlay, hcoh, hent, hctl, sumRecip_congr hlay]

lemma rawScore_congr {m1 m2 : QuantumWeightModel}
    (hlay : m1.qubit_layout = m2.qubit_layout)
    (hcoh : m1.coherence_map = m2.coherence_map)
    (hent : m1.entanglement_map = m2.entanglement_map)
    (hctl : m1.control_roles = m2.control_roles) (q : String) :
    rawScore m1 q = rawScore m2 q := by
  unfold rawScore
  rw [calculate_weight_congr hlay hcoh hent hctl]

lemma maxRaw_congr {m1 m2 : QuantumWeightModel}
    (hlay : m1.qubit_layout = m2.qubit_layout)
    (hcoh : m1.coherence_map = m2.coherence_map)
    (hent : m1.entanglement_map = m2.entanglement_map)
    (hctl : m1.control_roles = m2.control_roles) :
    maxRaw m1 = maxRaw m2 := by
  unfold maxRaw
  rw [hlay,
    show (fun (a : ℝ) (p : String × Coord) => max a (rawScore m1 p.1)) =
      (fun (a : ℝ) (p : String × Coord) => max a (rawScore m2 p.1)) by
    funext a p
    rw [rawScore_congr hlay hcoh hent hctl]]

lemma prox_unit_AB : compute_proximity mUnit "A" "B" = .ok 1 := by
  simp [compute_proximity, mUnit, List.lookup, vsub, l2norm]

lemma cw_unit_A : calculate_weight mUnit "A" = .ok 1 := by
  simp [calculate_weight, sumRecip, compute_proximity, mUnit, List.lookup, vsub,
    l2norm, coherenceScore, entanglementScore]

lemma cw_unit_B : calculate_weight mUnit "B" = .ok 1 := by
  simp [calculate_weight, sumRecip, compute_proximity, mUnit, List.lookup, vsub,
    l2norm, coherenceScore, entanglementScore]

lemma dimsOk_unit : DimsOk mUnit := by unfold DimsOk mUnit; decide

lemma nondeg_unit : Nondegenerate mUnit := by
  unfold Nondegenerate mUnit
  intro p hp p' hp' hne
  fin_cases hp <;> fin_cases hp' <;> simp_all

lemma maxRaw_unit : maxRaw mUnit = 1 := by
  have h : maxRaw mUnit = max (max 0 (rawScore mUnit "A")) (rawScore mUnit "B") := rfl
  rw [h, rawScore_eq_of_ok cw_unit_A, rawScore_eq_of_ok cw_unit_B]
  norm_num

lemma cw_mismatch_A : calculate_weight mMismatch "A" = .ok 0 := by
  simp [calculate_weight, sumRecip, compute_proximity, mMismatch, List.lookup,
    vsub, l2norm, coherenceScore, entanglementScore]

lemma cw_mismatch_B : calculate_weight mMismatch "B" = .error .valueError := by
  simp [calculate_weight, sumRecip, compute_proximity, mMismatch, List.lookup,
    vsub, l2norm, coherenceScore, entanglementScore]

lemma update_mMismatch :
    update_weights mMismatch =
      ({ mMismatch with weights := fun q => if q = "A" then some 0 else none },
       some PyErr.valueError) := by
  have h1 : scoreLoop mMismatch mMismatch.weights 0 mMismatch.qubit_layout =
      (fun x => if x = "A" then some (0 : ℝ) else none, 0, some PyErr.valueError) := by
    show scoreLoop mMismatch mMismatch.weights 0
        [("A", [0]), ("B", [1, 2]), ("C", [1, 2, 3])] = _
    simp only [scoreLoop, cw_mismatch_A, cw_mismatch_B]
    norm_num
    funext x
    by_cases hx : x = "A" <;> simp [hx, mMismatch]
  unfold update_weights
  rw [h1]

lemma prox_deg : compute_proximity mDeg "A" "B" = .ok 0 := by
  simp [compute_proximity, mDeg, List.lookup, vsub, l2norm]

/-! ## Claim theorems -/

/-- Claim C4: for an entity present in the layout (of a dimensionally
consistent, uniquely keyed, nondegenerate model), `calculate_weight` returns
exactly `(proximity_score + entanglement_score) * coherence_score *
control_bonus`, where the proximity score is the spec's sum of reciprocal
Euclidean distances to all other layout entities, the entanglement score is
the sum of strengths of coupling pairs containing the ID, the coherence
score defaults to `0` for an absent key, and the control bonus is
`3/2 = 1.5` for control-role members and `1` otherwise. -/
theorem calculate_weight_formula (m : QuantumWeightModel) (q : String)
    (c : Coord) (hq : m.qubit_layout.lookup q = some c) (hnodup : KeysNodup m)
    (hd : DimsOk m) (hnd : Nondegenerate m) :
    calculate_weight m q =
      .ok ((proximitySpec m q c + (entanglementScore m q : ℝ)) *
        (coherenceScore m q : ℝ) *
        (if q ∈ m.control_roles then (3 / 2 : ℝ) else 1)) := by
  rw [calculate_weight,
    sumRecip_eq_spec m hd hnodup hq m.qubit_layout (fun p hp => hp)]
  rfl

/-- Witness for C4: the formula evaluated at qubit `A` of the two-qubit
fixture. -/
theorem calculate_weight_formula_witness :
    mUnit.qubit_layout.lookup "A" = some [0] ∧
    calculate_weight mUnit "A" =
      .ok ((proximitySpec mUnit "A" [0] + (entanglementScore mUnit "A" : ℝ)) *
        (coherenceScore mUnit "A" : ℝ) *
        (if "A" ∈ mUnit.control_roles then (3 / 2 : ℝ) else 1)) :=
  ⟨rfl, calculate_weight_formula mUnit "A" [0] rfl
    (by unfold KeysNodup mUnit; decide) dimsOk_unit nondeg_unit⟩

/-- Claim C6: an entity whose coherence value is `0` (in particular one
absent from the coherence map, where `get` defaults to `0`) has raw score
`0` whatever the (nondegenerate) layout geometry, the coupling map and the
control roles. -/
theorem zero_coherence_zero_score (m : QuantumWeightModel) (q : String)
    (r : ℝ) (hnd : Nondegenerate m) (hcoh0 : coherenceScore m q = 0)
    (h : calculate_weight m q = .ok r) : r = 0 := by
  unfold calculate_weight at h
  split at h
  · cases h
  · cases h
    simp [hcoh0]

/-- Witness for C6: qubit `A` is absent from `mZeroCoh`'s coherence map and
its raw score is `0`. -/
theorem zero_coherence_zero_score_witness :
    coherenceScore mZeroCoh "A" = 0 ∧ calculate_weight mZeroCoh "A" = .ok 0 ∧
    (0 : ℝ) = 0 := by
  have hcw : calculate_weight mZeroCoh "A" = .ok 0 := by
    simp [calculate_weight, sumRecip, compute_proximity, mZeroCoh, mUnit,
      List.lookup, vsub, l2norm, coherenceScore, entanglementScore]
  have hnd : Nondegenerate mZeroCoh := by
    unfold Nondegenerate mZeroCoh mUnit
    intro p hp p' hp' hne
    fin_cases hp <;> fin_cases hp' <;> simp_all
  exact ⟨by decide, hcw, zero_coherence_zero_score mZeroCoh "A" 0 hnd (by decide) hcw⟩

/-- Claim C5: for a model (with the weights-lifecycle invariant) whose
layout is nonempty, after a successful `update_weights` pass the key set of
the weights dict is exactly the key set of the layout. -/
theorem weights_keys_eq_layout_keys (m : QuantumWeightModel)
    (hne : m.qubit_layout ≠ []) (hw : WeightsSub m)
    (hsucc : (update_weights m).2 = none) :
    ∀ q, ((update_weights m).1.weights q).isSome ↔
      q ∈ m.qubit_layout.map Prod.fst := by
  have hchar := update_weights_char m (all_ok_of_success m hsucc)
  intro q
  rw [hchar.2 q]
  by_cases hq : q ∈ m.qubit_layout.map Prod.fst
  · split <;> simp [hq]
  · have hnone : m.weights q = none := by
      rcases hw0 : m.weights q with _ | v
      · rfl
      · exact absurd (hw q (by rw [hw0]; rfl)) hq
    split <;> simp [hq, hnone]

/-- Witness for C5 at the two-qubit fixture, key `A`. -/
theorem weights_keys_eq_layout_keys_witness :
    (update_weights mUnit).2 = none ∧
    (((update_weights mUnit).1.weights "A").isSome ↔
      "A" ∈ mUnit.qubit_layout.map Prod.fst) := by
  have hsucc : (update_weights mUnit).2 = none :=
    (update_weights_char mUnit (all_ok_of_dims mUnit dimsOk_unit)).1
  exact ⟨hsucc, weights_keys_eq_layout_keys mUnit (by decide)
    (fun q h => by simp [mUnit] at h) hsucc "A"⟩

/-- Claim C3: for a dimensionally consistent, nondegenerate model with
non-negative coherence and coupling values (and the weights-lifecycle
invariant), `update_weights` succeeds; if the maximum raw score is strictly
positive every published weight lies in `[0, 1]` and some entity's weight is
exactly `1`; if the maximum raw score is `0`, every layout entity's weight
is left at its (zero) raw score. -/
theorem normalization_bounds (m : QuantumWeightModel) (hd : DimsOk m)
    (hnd : Nondegenerate m) (hcoh : CoherenceNonneg m) (hcpl : CouplingNonneg m)
    (hw : WeightsSub m) :
    (update_weights m).2 = none ∧
    (0 < maxRaw m →
      (∀ q r, (update_weights m).1.weights q = some r → 0 ≤ r ∧ r ≤ 1) ∧
      ∃ q, (update_weights m).1.weights q = some 1) ∧
    (maxRaw m = 0 →
      ∀ q ∈ m.qubit_layout.map Prod.fst,
        (update_weights m).1.weights q = some (rawScore m q) ∧
          rawScore m q = 0) := by
  have hchar := update_weights_char m (all_ok_of_dims m hd)
  have hraw_nonneg : ∀ q, 0 ≤ rawScore m q := rawScore_nonneg hcoh hcpl
  have hraw_le : ∀ q ∈ m.qubit_layout.map Prod.fst, rawScore m q ≤ maxRaw m := by
    intro q hq
    rcases List.mem_map.1 hq with ⟨p, hp, hpq⟩
    exact hpq ▸ le_foldl_max (fun p => rawScore m p.1) m.qubit_layout 0 hp
  refine ⟨hchar.1, ?_, ?_⟩
  · intro hmx
    constructor
    · intro q r hqr
      rw [hchar.2 q, if_pos hmx] at hqr
      by_cases hq : q ∈ m.qubit_layout.map Prod.fst
      · rw [if_pos hq, Option.map_some'] at hqr
        have hr : r = rawScore m q / maxRaw m := (Option.some.inj hqr).symm
        rw [hr]
        exact ⟨div_nonneg (hraw_nonneg q) (le_of_lt hmx),
          (div_le_one hmx).2 (hraw_le q hq)⟩
      · rw [if_neg hq] at hqr
        have hnone : m.weights q = none := by
          rcases hw0 : m.weights q with _ | v
          · rfl
          · exact absurd (hw q (by rw [hw0]; rfl)) hq
        rw [hnone] at hqr
        cases hqr
    · rcases foldl_max_eq_init_or_mem (fun p => rawScore m p.1)
        m.qubit_layout 0 with h0 | ⟨p, hp, hpeq⟩
      · exact absurd hmx (by rw [show maxRaw m = 0 from h0]; exact lt_irrefl 0)
      · refine ⟨p.1, ?_⟩
        have hq : p.1 ∈ m.qubit_layout.map Prod.fst :=
          List.mem_map_of_mem Prod.fst hp
        rw [hchar.2 p.1, if_pos hmx, if_pos hq, Option.map_some',
          show rawScore m p.1 = maxRaw m from hpeq.symm,
          div_self (ne_of_gt hmx)]
  · intro hmx0 q hq
    rw [hchar.2 q, if_neg (by rw [hmx0]; exact lt_irrefl 0), if_pos hq]
    exact ⟨rfl, le_antisymm (hmx0 ▸ hraw_le q hq) (hraw_nonneg q)⟩

/-- Witness for C3 at the two-qubit fixture: the maximum raw score is `1 > 0`
and some entity's weight is exactly `1`. -/
theorem normalization_bounds_witness :
    0 < maxRaw mUnit ∧
    ∃ q, (update_weights mUnit).1.weights q = some 1 := by
  have hmx : 0 < maxRaw mUnit := by
    rw [maxRaw_unit]
    norm_num
  exact ⟨hmx, ((normalization_bounds mUnit dimsOk_unit nondeg_unit
    (fun p hp => by fin_cases hp <;> norm_num)
    (fun p hp => by cases hp)
    (fun q h => by simp [mUnit] at h)).2.1 hmx).2⟩

/-- Claim C9: `update_weights` is idempotent — a second pass recomputes the
same raw scores from the unchanged inputs and publishes the same weights. -/
theorem update_weights_idempotent (m : QuantumWeightModel) (hd : DimsOk m)
    (hw : WeightsSub m) :
    (update_weights (update_weights m).1).1.weights =
      (update_weights m).1.weights := by
  obtain ⟨hlay, hcoh, hent, hctl⟩ := update_weights_fields m
  have hd1 : DimsOk (update_weights m).1 := by
    intro p hp p' hp'
    rw [hlay] at hp hp'
    exact hd p hp p' hp'
  have hraw1 : ∀ q, rawScore (update_weights m).1 q = rawScore m q :=
    rawScore_congr hlay hcoh hent hctl
  have hmax1 : maxRaw (update_weights m).1 = maxRaw m :=
    maxRaw_congr hlay hcoh hent hctl
  have hchar := update_weights_char m (all_ok_of_dims m hd)
  have hchar1 := update_weights_char (update_weights m).1 (all_ok_of_dims _ hd1)
  funext q
  have hkeys1 : (update_weights m).1.qubit_layout.map Prod.fst =
      m.qubit_layout.map Prod.fst := by rw [hlay]
  by_cases hq : q ∈ m.qubit_layout.map Prod.fst
  · rw [hchar1.2 q, hchar.2 q, hmax1, hraw1 q, hkeys1, if_pos hq, if_pos hq]
  · have hnone : m.weights q = none := by
      rcases hw0 : m.weights q with _ | v
      · rfl
      · exact absurd (hw q (by rw [hw0]; rfl)) hq
    have h1 : (update_weights m).1.weights q = none := by
      rw [hchar.2 q]
      split <;> simp [hq, hnone]
    rw [hchar1.2 q, hmax1, hkeys1, h1]
    split <;> simp [hq]

/-- Witness for C9 at the two-qubit fixture. -/
theorem update_weights_idempotent_witness :
    (update_weights (update_weights mUnit).1).1.weights =
      (update_weights mUnit).1.weights :=
  update_weights_idempotent mUnit dimsOk_unit (fun q h => by simp [mUnit] at h)

/-- Claim C1 (code evaluated at the failing input): in `mDeg` the two
distinct entities `A` and `B` have identical coordinate vectors, yet
`compute_proximity` returns distance `0` without any error — there is no
degenerate-geometry guard, so `calculate_weight` goes on to evaluate the
proximity term `1 / 0` (which IEEE/numpy arithmetic turns into an infinity
that propagates, unhandled, into the weights). -/
theorem degenerate_distance_unguarded :
    "A" ≠ "B" ∧
    mDeg.qubit_layout.lookup "A" = mDeg.qubit_layout.lookup "B" ∧
    compute_proximity mDeg "A" "B" = .ok 0 :=
  ⟨by decide, rfl, prox_deg⟩

/-- Counterexample to C2: running `update_weights` on `mMismatch` raises a
`ValueError` partway through the pass, and afterwards `get_weights` exposes
a weights mapping that differs from its pre-call value — entity `A`'s raw
score was already published. -/
theorem mid_pass_write_published :
    (update_weights mMismatch).2 = some PyErr.valueError ∧
    get_weights (update_weights mMismatch).1 "A" = some 0 ∧
    get_weights mMismatch "A" = none := by
  rw [update_mMismatch]
  exact ⟨rfl, by simp [get_weights], rfl⟩

/-- Claim C2 as amended: when `update_weights` raises partway, the error is
surfaced, but the weights mapping afterwards is the previous mapping with
the raw (unnormalized) scores of the entities processed before the failure
written over it — each entry either keeps its old value or holds a
successfully computed raw score. -/
theorem failed_pass_weights (m : QuantumWeightModel) (e : PyErr)
    (h : (update_weights m).2 = some e) (q : String) :
    (update_weights m).1.weights q = m.weights q ∨
    ∃ r, calculate_weight m q = .ok r ∧
      (update_weights m).1.weights q = some r := by
  unfold update_weights at h ⊢
  rcases hs : scoreLoop m m.weights 0 m.qubit_layout with ⟨w, mx, e'⟩
  cases e' with
  | none =>
    exfalso
    split at h
    · simp_all
    · split at h <;> simp at h
  | some e' => exact scoreLoop_err hs q

/-- Witness for the amended C2 at `mMismatch`: the pass fails, and entry `B`
(the failing entity) keeps its previous value. -/
theorem failed_pass_weights_witness :
    (update_weights mMismatch).2 = some PyErr.valueError ∧
    ((update_weights mMismatch).1.weights "B" = mMismatch.weights "B" ∨
      ∃ r, calculate_weight mMismatch "B" = .ok r ∧
        (update_weights mMismatch).1.weights "B" = some r) :=
  ⟨by rw [update_mMismatch],
    failed_pass_weights mMismatch PyErr.valueError (by rw [update_mMismatch]) "B"⟩

/-- Claim C10: on an empty layout `update_weights` completes without error
and returns the state unchanged: the loop body never runs, the maximum
stays `0`, and the normalization division is skipped. -/
theorem update_weights_empty_layout (m : QuantumWeightModel)
    (h : m.qubit_layout = []) : update_weights m = (m, none) := by
  have hs : scoreLoop m m.weights 0 m.qubit_layout = (m.weights, 0, none) := by
    rw [h, scoreLoop]
  unfold update_weights
  rw [hs]
  show (if 0 < (0 : ℝ) then _ else _) = _
  rw [if_neg (lt_irrefl (0 : ℝ))]

/-- Witness for C10: the empty fixture. -/
theorem update_weights_empty_layout_witness :
    update_weights mEmpty = (mEmpty, none) :=
  update_weights_empty_layout mEmpty rfl

/-- Claim C8: over a dimensionally consistent layout, `compute_proximity`
fails with a `KeyError` exactly when at least one of the two IDs is absent
from the layout, and when both are present it returns the Euclidean (L2)
distance between their coordinate vectors, which is symmetric in the two
arguments. -/
theorem compute_proximity_spec (m : QuantumWeightModel) (hd : DimsOk m)
    (q1 q2 : String) :
    ((∃ s, compute_proximity m q1 q2 = .error (PyErr.keyError s)) ↔
      m.qubit_layout.lookup q1 = none ∨ m.qubit_layout.lookup q2 = none) ∧
    ∀ c1 c2, m.qubit_layout.lookup q1 = some c1 →
      m.qubit_layout.lookup q2 = some c2 →
      compute_proximity m q1 q2 =
        .ok (l2norm (List.zipWith (· - ·) c1 c2)) ∧
      compute_proximity m q1 q2 = compute_proximity m q2 q1 := by
  have hok : ∀ qa qb ca cb, m.qubit_layout.lookup qa = some ca →
      m.qubit_layout.lookup qb = some cb →
      compute_proximity m qa qb =
        .ok (l2norm (List.zipWith (· - ·) ca cb)) := by
    intro qa qb ca cb hca hcb
    have hlen : ca.length = cb.length :=
      hd (qa, ca) (mem_of_lookup_eq_some hca) (qb, cb) (mem_of_lookup_eq_some hcb)
    simp only [compute_proximity, hca, hcb, vsub_ok_of_length_eq hlen]
  constructor
  · constructor
    · rintro ⟨s, hs⟩
      by_contra hno
      push_neg at hno
      rcases Option.ne_none_iff_exists'.1 hno.1 with ⟨c1, hc1⟩
      rcases Option.ne_none_iff_exists'.1 hno.2 with ⟨c2, hc2⟩
      rw [hok q1 q2 c1 c2 hc1 hc2] at hs
      cases hs
    · intro h
      rcases h with h | h
      · exact ⟨q1, by simp only [compute_proximity, h]⟩
      · rcases hl1 : m.qubit_layout.lookup q1 with _ | c1
        · exact ⟨q1, by simp only [compute_proximity, hl1]⟩
        · exact ⟨q2, by simp only [compute_proximity, hl1, h]⟩
  · intro c1 c2 hc1 hc2
    refine ⟨hok q1 q2 c1 c2 hc1 hc2, ?_⟩
    rw [hok q1 q2 c1 c2 hc1 hc2, hok q2 q1 c2 c1 hc2 hc1,
      l2norm_zipWith_sub_comm]

/-- Witness for C8: both directions at the two-qubit fixture — present keys
give the distance and symmetry, a missing key gives a `KeyError`. -/
theorem compute_proximity_spec_witness :
    (compute_proximity mUnit "A" "B" =
        .ok (l2norm (List.zipWith (· - ·) [0] [1])) ∧
      compute_proximity mUnit "A" "B" = compute_proximity mUnit "B" "A") ∧
    (∃ s, compute_proximity mUnit "A" "X" = .error (PyErr.keyError s)) :=
  ⟨(compute_proximity_spec mUnit dimsOk_unit "A" "B").2 [0] [1] rfl rfl,
    ((compute_proximity_spec mUnit dimsOk_unit "A" "X").1).2 (Or.inr rfl)⟩

/-- Claim C7: in two models identical except for the control roles, an
entity that is a control node in the first but not in the second scores
exactly `3/2 = 1.5` times its raw score in the second. -/
theorem control_bonus_ratio (m1 m2 : QuantumWeightModel) (q : String) (r : ℝ)
    (hlay : m1.qubit_layout = m2.qubit_layout)
    (hcoh : m1.coherence_map = m2.coherence_map)
    (hent : m1.entanglement_map = m2.entanglement_map)
    (hq1 : q ∈ m1.control_roles) (hq2 : q ∉ m2.control_roles)
    (hnd : Nondegenerate m2) (h : calculate_weight m2 q = .ok r) :
    calculate_weight m1 q = .ok (3 / 2 * r) := by
  have hsum : sumRecip m1 q m1.qubit_layout = sumRecip m2 q m2.qubit_layout := by
    rw [hlay, sumRecip_congr hlay]
  have hes : entanglementScore m1 q = entanglementScore m2 q := by
    unfold entanglementScore
    rw [hent]
  have hcs : coherenceScore m1 q = coherenceScore m2 q := by
    unfold coherenceScore
    rw [hcoh]
  unfold calculate_weight at h ⊢
  rw [hsum, hes, hcs, if_pos hq1]
  rcases hs : sumRecip m2 q m2.qubit_layout with e | prox <;> rw [hs] at h
  · cases h
  · rw [if_neg hq2] at h
    have hr : (prox + (entanglementScore m2 q : ℝ)) *
        (coherenceScore m2 q : ℝ) * 1 = r := by
      cases h
      rfl
    rw [show (3 / 2 : ℝ) * r = (prox + (entanglementScore m2 q : ℝ)) *
      (coherenceScore m2 q : ℝ) * (3 / 2 : ℝ) by rw [← hr]; ring]

/-- Witness for C7: `mCtrl` and `mUnit` differ only in `control_roles`;
qubit `A` scores `1` in `mUnit` and `3/2` in `mCtrl`. -/
theorem control_bonus_ratio_witness :
    calculate_weight mUnit "A" = .ok 1 ∧
    calculate_weight mCtrl "A" = .ok (3 / 2 * 1) :=
  ⟨cw_unit_A,
    control_bonus_ratio mCtrl mUnit "A" 1 rfl rfl rfl (by decide) (by decide)
      nondeg_unit cw_unit_A⟩

end QuantumWeightModel
